import Mathlib

/-!
Verification of the speculative asynchronous binary-search engine of
`src/iouring_search.c` (`binary_search_uint64`).

The shallow embedding mirrors the C source:

* the sorted array file is modelled as `arr : List Nat` of its 8-byte
  unsigned elements (values fit in 64 bits; no arithmetic is performed on
  them, only comparisons, so `Nat` is faithful);
* `off_t` quantities (`lo`, `hi`, offsets, steps) are modelled as `Int`:
  they are 64-bit signed in C and, for files of at most 2^60 bytes, none of
  the expressions computed by the search (`lo + step * (i + 1)`,
  `index * 8`, `elem_idx - 1`, ...) can overflow, so unbounded integers are
  an exact model.  C integer division `range / (active_reads + 1)` always
  has a non-negative dividend and positive divisor on every path of the
  source, where truncating division and Euclidean division agree, so
  Lean's `Int` division `/` (Euclidean) is faithful;
* the asynchronous completion-queue device is modelled by an oracle
  `io : Nat → Int` giving, for each probe slot, the `cqe->res` result code
  of its read; a read is valid exactly when it returns the full
  `sizeof(uint64_t) = 8` bytes, in which case its buffer holds the file's
  value at the probed offset.  The oracle `allReadsOk` (every read returns
  8) is the normal deterministic environment;
* device initialization (SQPOLL queue setup, standard queue setup, fixed
  buffer registration) is modelled by an environment `InitEnv` of
  success/failure bits for the three fallible kernel calls.

The code's `LINEAR_SEARCH_THRESHOLD` is a compile-time constant (0); the
embedding takes the threshold as a parameter `thr` and the top-level engine
instantiates it with the source's constant, so that the threshold-dependent
behaviour can be stated for the threshold values the specification
discusses.
-/

/-- Constant `PARALLEL_READS` from the source (number of speculative reads). -/
def PARALLEL_READS : Nat := 4

/-- Constant `LINEAR_SEARCH_THRESHOLD` from the source. -/
def LINEAR_SEARCH_THRESHOLD : Int := 0

/-- Constant `READAHEAD_THRESHOLD` from the source. -/
def READAHEAD_THRESHOLD : Int := 512

/-- Mirror of the C struct `read_data`: one probe slot.  `offset` is the
byte offset of the read, `value` the 8-byte value read (meaningful only
when `valid`), `valid` the flag set when the completion reported a full
8-byte read. -/
structure ReadData where
  offset : Int
  value : Nat
  valid : Bool
deriving DecidableEq, Repr

/-- Probe-count policy (source lines 222-228): use all `PARALLEL_READS`
probes when `range > PARALLEL_READS * 100`, otherwise exactly one probe. -/
def activeReads (range : Int) : Nat :=
  if range > (PARALLEL_READS : Int) * 100 then PARALLEL_READS else 1

/-- Probe spacing (source lines 230-231): `step = range / (active_reads + 1)`,
forced to a minimum of 1 when the division yields 0. -/
def stepSize (range : Int) (active : Nat) : Int :=
  let s := range / ((active : Int) + 1)
  if s = 0 then 1 else s

/-- Probe position of slot `i` (source lines 236-237):
`index_pos = lo + step * (i + 1)`, clamped down to `hi`. -/
def probePos (lo hi step : Int) (i : Nat) : Int :=
  let p := lo + step * ((i : Int) + 1)
  if p > hi then hi else p

/-- Element indices probed in one round, in submission order. -/
def probePositions (lo hi : Int) : List Int :=
  let range := hi - lo
  let active := activeReads range
  let step := stepSize range active
  (List.range active).map (probePos lo hi step)

/-- Build the probe slot of index `i` for one round: byte offset
`index_pos * 8` (source line 239), and, after completion processing
(source lines 280-300), `valid` iff the read returned 8 bytes, in which
case the buffer holds the file's element at the probed index. -/
def mkRead (arr : List Nat) (lo hi step : Int) (io : Nat → Int) (i : Nat) : ReadData :=
  let pos := probePos lo hi step i
  { offset := pos * 8
    value := arr.getD pos.toNat 0
    valid := io i == 8 }

/-- All probe slots of one round after completion processing. -/
def mkReads (arr : List Nat) (lo hi : Int) (io : Nat → Int) : List ReadData :=
  let range := hi - lo
  let active := activeReads range
  let step := stepSize range active
  (List.range active).map (mkRead arr lo hi step io)

/-- Completion-processing hit detection (source lines 280-300): every
valid completion whose value equals the target sets `found` and overwrites
`target_offset`, so the last matching completion in processing order
wins. -/
def scanHit (target : Nat) (reads : List ReadData) : Option Int :=
  reads.foldl (fun acc r => if r.valid = true ∧ r.value = target then some r.offset else acc) none

/-- Interval-narrowing loop (source lines 311-337).  Invalid probes are
skipped; a valid probe equal to the target ends the loop recording its
byte offset; a valid probe below the target raises the candidate lower
bound to `elem_idx + 1`; a valid probe above the target lowers the
candidate upper bound to `elem_idx - 1`.  Returns
`(new_lo, new_hi, hit)`. -/
def narrowLoop (target : Nat) : List ReadData → Int → Int → Int × Int × Option Int
  | [], nl, nh => (nl, nh, none)
  | r :: rest, nl, nh =>
    if r.valid = true then
      let idx := r.offset / 8
      if r.value = target then (nl, nh, some r.offset)
      else if r.value < target then
        narrowLoop target rest (if idx + 1 > nl then idx + 1 else nl) nh
      else
        narrowLoop target rest nl (if idx - 1 < nh then idx - 1 else nh)
    else
      narrowLoop target rest nl nh

/-- Linear scan of `count` elements starting at element index `lo`
(source lines 189-196): returns the byte offset of the first element equal
to the target, if any. -/
def scanFrom (arr : List Nat) (target : Nat) (lo : Int) : Nat → Option Int
  | 0 => none
  | count + 1 =>
    if arr.getD lo.toNat 0 = target then some (lo * 8)
    else scanFrom arr target (lo + 1) count

/-- Linear-scan fallback over the interval `[lo, hi]` (source lines
169-200): the whole byte range is read in one bulk `pread` and scanned in
memory in ascending index order. -/
def linearScan (arr : List Nat) (target : Nat) (lo hi : Int) : Option Int :=
  scanFrom arr target lo (hi - lo + 1).toNat

/-- Number of asynchronous probe reads issued by one round (source line
265, `total_reads += active_reads`, which the linear-scan branch bypasses
by breaking out of the loop first). -/
def roundProbes (use_readahead : Bool) (thr : Int) (lo hi : Int) : Nat :=
  if use_readahead = true ∧ hi - lo ≤ thr then 0 else activeReads (hi - lo)

/-- Outcome of one iteration of the main search loop. -/
inductive RoundResult where
  | hit (off : Int)
  | linearDone (res : Option Int)
  | cont (lo hi : Int)
deriving DecidableEq, Repr

/-- One iteration of the main search loop body (source lines 164-346),
entered with `lo ≤ hi`: either the linear-scan fallback fires
(`use_readahead` enabled and `hi - lo ≤ thr`), or a batch of probes is
issued, completions are processed for an exact hit, and otherwise the
interval is narrowed.  The `posix_fadvise` readahead hint (source lines
204-220) has no effect on values read and is not modelled. -/
def searchStep (arr : List Nat) (target : Nat) (use_readahead : Bool) (thr : Int)
    (io : Nat → Int) (lo hi : Int) : RoundResult :=
  if use_readahead = true ∧ hi - lo ≤ thr then
    .linearDone (linearScan arr target lo hi)
  else
    match scanHit target (mkReads arr lo hi io) with
    | some off => .hit off
    | none =>
      match narrowLoop target (mkReads arr lo hi io) lo hi with
      | (_, _, some off) => .hit off
      | (nl, nh, none) => .cont nl nh

/-- Result of one whole search as observed through the source's `found`
flag and `target_offset` variable. -/
inductive SearchOutcome where
  | found (byteOffset : Int)
  | notFound
  | ioError
deriving DecidableEq, Repr

/-- Oracle for the normal environment: every probe read completes with the
full 8 bytes. -/
def allReadsOk : Nat → Int := fun _ => 8

/-- Main search loop (source `while (lo <= hi)`), run in the normal
environment where every probe read succeeds.  `fuel` bounds the number of
loop iterations; `none` means the bound was exhausted (the C loop has no
such bound, and the theorems below prove the bound used by the engine is
never exhausted). -/
def searchLoop (arr : List Nat) (target : Nat) (use_readahead : Bool) (thr : Int) :
    Nat → Int → Int → Option SearchOutcome
  | 0, _, _ => none
  | fuel + 1, lo, hi =>
    if hi < lo then some .notFound
    else
      match searchStep arr target use_readahead thr allReadsOk lo hi with
      | .hit off => some (.found off)
      | .linearDone (some off) => some (.found off)
      | .linearDone none => some .notFound
      | .cont lo' hi' => searchLoop arr target use_readahead thr fuel lo' hi'

/-- Iteration bound used by the engine: the round-contraction lemma below
shows each probing round multiplies the interval size by at most 4/5, so
`4 * log2 N + 5` probing rounds plus one terminal iteration always
suffice. -/
def searchFuel (n : Nat) : Nat := 4 * Nat.log 2 n + 6

/-- Success/failure environment for the three fallible initialization
calls of the device adapter: SQPOLL `io_uring_queue_init_params`, standard
`io_uring_queue_init`, and `io_uring_register_buffers`. -/
structure InitEnv where
  sqpollInitOk : Bool
  stdInitOk : Bool
  registerOk : Bool
deriving DecidableEq, Repr

/-- Environment in which every initialization call succeeds. -/
def idealEnv : InitEnv := ⟨true, true, true⟩

/-- Device initialization (source lines 98-161): returns
`(sqpoll_enabled, buffers_registered)`, or `none` on fatal initialization
failure.  A failed SQPOLL setup falls back to the standard queue
non-fatally; a failed buffer registration non-fatally leaves
`buffers_registered` unset. -/
def initRing (use_sqpoll use_buffers : Bool) (env : InitEnv) : Option (Bool × Bool) :=
  if use_sqpoll = true then
    if env.sqpollInitOk = true then some (true, use_buffers && env.registerOk)
    else if env.stdInitOk = true then some (false, use_buffers && env.registerOk)
    else none
  else
    if env.stdInitOk = true then some (false, use_buffers && env.registerOk)
    else none

/-- Whole search of `binary_search_uint64` in a given initialization
environment: file-shape validation (empty file is fatal; byte-alignment
holds by construction in the list model), device initialization, then the
main loop from `lo = 0`, `hi = num_elements - 1`.  The two mode flags
`use_sqpoll` and `use_buffers` select the I/O mechanism only and do not
change which bytes a successful read returns, which the source reflects by
using them only to pick the read preparation call. -/
def runSearch (arr : List Nat) (target : Nat)
    (use_sqpoll use_buffers use_readahead : Bool) (env : InitEnv) : Option SearchOutcome :=
  if arr.length = 0 then some .ioError
  else
    match initRing use_sqpoll use_buffers env with
    | none => some .ioError
    | some _ =>
      searchLoop arr target use_readahead LINEAR_SEARCH_THRESHOLD
        (searchFuel arr.length) 0 ((arr.length : Int) - 1)

/-- The engine in the normal environment, as the specification's
quantification over configurations sees it. -/
def binary_search_uint64 (arr : List Nat) (target : Nat)
    (use_sqpoll use_buffers use_readahead : Bool) : Option SearchOutcome :=
  runSearch arr target use_sqpoll use_buffers use_readahead idealEnv

/-- The C return value of `binary_search_uint64` (source line 380 and the
early-return error paths): `0` when found, `-1` otherwise — not-found and
every fatal error path return the same value. -/
def searchRet (arr : List Nat) (target : Nat)
    (use_sqpoll use_buffers use_readahead : Bool) (env : InitEnv) : Int :=
  match runSearch arr target use_sqpoll use_buffers use_readahead env with
  | some (.found _) => 0
  | some .notFound => -1
  | some .ioError => -1
  | none => -1

/-- Byte offsets answered by the search are exact: a good offset is a
multiple of 8 addressing an in-bounds element whose value is the target. -/
def GoodOff (arr : List Nat) (target : Nat) (off : Int) : Prop :=
  0 ≤ off ∧ off % 8 = 0 ∧ (off / 8).toNat < arr.length ∧ arr.getD (off / 8).toNat 0 = target

/-- Lower bound computed by the specification's narrower description: the
intersection of the prior lower bound with every candidate `index + 1`
raised by a valid completion strictly below the target. -/
def narrowSpecLo (target : Nat) (reads : List ReadData) (lo : Int) : Int :=
  reads.foldl
    (fun a r => if r.valid = true ∧ r.value < target then max a (r.offset / 8 + 1) else a) lo

/-- Upper bound computed by the specification's narrower description: the
intersection of the prior upper bound with every candidate `index - 1`
lowered by a valid completion strictly above the target. -/
def narrowSpecHi (target : Nat) (reads : List ReadData) (hi : Int) : Int :=
  reads.foldl
    (fun a r => if r.valid = true ∧ target < r.value then min a (r.offset / 8 - 1) else a) hi

/-! ## Basic facts about the probe scheduler -/

theorem activeReads_pos (range : Int) : 0 < activeReads range := by
  unfold activeReads; split <;> norm_num [PARALLEL_READS]

theorem stepSize_pos (range : Int) (active : Nat) (h : 0 ≤ range) :
    1 ≤ stepSize range active := by
  have hd : 0 ≤ range / ((active : Int) + 1) :=
    Int.ediv_nonneg h (by positivity)
  simp only [stepSize]
  split <;> omega

theorem probePos_bounds (lo hi step : Int) (i : Nat) (hlh : lo ≤ hi) (hs : 1 ≤ step) :
    lo ≤ probePos lo hi step i ∧ probePos lo hi step i ≤ hi := by
  have hip : (1 : Int) ≤ (i : Int) + 1 := by
    have : (0 : Int) ≤ (i : Int) := Int.natCast_nonneg i
    omega
  have hm : (1 : Int) ≤ step * ((i : Int) + 1) := by
    calc (1 : Int) = 1 * 1 := by norm_num
    _ ≤ step * ((i : Int) + 1) := mul_le_mul hs hip (by norm_num) (by omega)
  simp only [probePos]
  split <;> omega

/-! ## Facts about completion-processing hit detection -/

theorem scanHit_foldl_some (target : Nat) :
    ∀ (l : List ReadData) (o : Int),
      l.foldl (fun acc r => if r.valid = true ∧ r.value = target then some r.offset else acc)
        (some o) ≠ none := by
  intro l
  induction l with
  | nil => intro o h; exact Option.noConfusion h
  | cons r rest ih =>
    intro o
    simp only [List.foldl_cons]
    by_cases h : r.valid = true ∧ r.value = target
    · simp only [h, if_pos]; exact ih r.offset
    · simp only [h, if_neg, not_false_iff]; exact ih o

theorem scanHit_none (target : Nat) (l : List ReadData) (h : scanHit target l = none) :
    ∀ r ∈ l, r.valid = true → r.value ≠ target := by
  induction l with
  | nil => intro r hr; exact absurd hr (List.not_mem_nil r)
  | cons q rest ih =>
    unfold scanHit at h
    simp only [List.foldl_cons] at h
    by_cases hq : q.valid = true ∧ q.value = target
    · rw [if_pos hq] at h
      exact absurd h (scanHit_foldl_some target rest q.offset)
    · rw [if_neg hq] at h
      intro r hr hv
      rcases List.mem_cons.mp hr with he | hm
      · subst he; intro hval; exact hq ⟨hv, hval⟩
      · exact ih h r hm hv

theorem scanHit_some_aux (target : Nat) :
    ∀ (l : List ReadData) (acc : Option Int) (off : Int),
      l.foldl (fun acc r => if r.valid = true ∧ r.value = target then some r.offset else acc)
        acc = some off →
      (∃ r ∈ l, r.valid = true ∧ r.value = target ∧ r.offset = off) ∨ acc = some off := by
  intro l
  induction l with
  | nil => intro acc off h; exact Or.inr h
  | cons q rest ih =>
    intro acc off h
    simp only [List.foldl_cons] at h
    by_cases hq : q.valid = true ∧ q.value = target
    · rw [if_pos hq] at h
      rcases ih _ _ h with ⟨r, hr, hprop⟩ | hacc
      · exact Or.inl ⟨r, List.mem_cons_of_mem q hr, hprop⟩
      · exact Or.inl ⟨q, List.mem_cons_self q rest, hq.1, hq.2, Option.some.inj hacc⟩
    · rw [if_neg hq] at h
      rcases ih _ _ h with ⟨r, hr, hprop⟩ | hacc
      · exact Or.inl ⟨r, List.mem_cons_of_mem q hr, hprop⟩
      · exact Or.inr hacc

theorem scanHit_some (target : Nat) (l : List ReadData) (off : Int)
    (h : scanHit target l = some off) :
    ∃ r ∈ l, r.valid = true ∧ r.value = target ∧ r.offset = off := by
  rcases scanHit_some_aux target l none off h with hgood | hbad
  · exact hgood
  · exact Option.noConfusion hbad

/-! ## Facts about the interval narrower -/

theorem narrowLoop_fst_ge (target : Nat) :
    ∀ (l : List ReadData) (nl nh : Int), nl ≤ (narrowLoop target l nl nh).1 := by
  intro l
  induction l with
  | nil => intro nl nh; simp [narrowLoop]
  | cons r rest ih =>
    intro nl nh
    simp only [narrowLoop]
    by_cases hv : r.valid = true
    · rw [if_pos hv]
      by_cases he : r.value = target
      · rw [if_pos he]
      · rw [if_neg he]
        by_cases hl : r.value < target
        · rw [if_pos hl]
          have h2 := ih (if r.offset / 8 + 1 > nl then r.offset / 8 + 1 else nl) nh
          have h3 : nl ≤ (if r.offset / 8 + 1 > nl then r.offset / 8 + 1 else nl) := by
            split <;> omega
          omega
        · rw [if_neg hl]; exact ih nl _
    · rw [if_neg hv]; exact ih nl nh

theorem narrowLoop_snd_le (target : Nat) :
    ∀ (l : List ReadData) (nl nh : Int), (narrowLoop target l nl nh).2.1 ≤ nh := by
  intro l
  induction l with
  | nil => intro nl nh; simp [narrowLoop]
  | cons r rest ih =>
    intro nl nh
    simp only [narrowLoop]
    by_cases hv : r.valid = true
    · rw [if_pos hv]
      by_cases he : r.value = target
      · rw [if_pos he]
      · rw [if_neg he]
        by_cases hl : r.value < target
        · rw [if_pos hl]; exact ih _ nh
        · rw [if_neg hl]
          have h2 := ih nl (if r.offset / 8 - 1 < nh then r.offset / 8 - 1 else nh)
          have h3 : (if r.offset / 8 - 1 < nh then r.offset / 8 - 1 else nh) ≤ nh := by
            split <;> omega
          omega
    · rw [if_neg hv]; exact ih nl nh

theorem if_gt_eq_max (a b : Int) : (if b > a then b else a) = max a b := by omega

theorem if_lt_eq_min (a b : Int) : (if b < a then b else a) = min a b := by omega

theorem narrowSpecLo_cons (target : Nat) (r : ReadData) (rest : List ReadData) (a : Int) :
    narrowSpecLo target (r :: rest) a =
      narrowSpecLo target rest
        (if r.valid = true ∧ r.value < target then max a (r.offset / 8 + 1) else a) := rfl

theorem narrowSpecHi_cons (target : Nat) (r : ReadData) (rest : List ReadData) (a : Int) :
    narrowSpecHi target (r :: rest) a =
      narrowSpecHi target rest
        (if r.valid = true ∧ target < r.value then min a (r.offset / 8 - 1) else a) := rfl

theorem narrowLoop_nohit (target : Nat) :
    ∀ (l : List ReadData) (nl nh : Int),
      (∀ r ∈ l, r.valid = true → r.value ≠ target) →
      narrowLoop target l nl nh = (narrowSpecLo target l nl, narrowSpecHi target l nh, none) := by
  intro l
  induction l with
  | nil => intro nl nh _; simp [narrowLoop, narrowSpecLo, narrowSpecHi]
  | cons r rest ih =>
    intro nl nh hno
    have hr : r.valid = true → r.value ≠ target := hno r (List.mem_cons_self r rest)
    have hrest : ∀ q ∈ rest, q.valid = true → q.value ≠ target :=
      fun q hq => hno q (List.mem_cons_of_mem r hq)
    rw [narrowSpecLo_cons, narrowSpecHi_cons]
    simp only [narrowLoop]
    by_cases hv : r.valid = true
    · have hne : ¬(r.value = target) := hr hv
      by_cases hl : r.value < target
      · have hc1 : r.valid = true ∧ r.value < target := ⟨hv, hl⟩
        have hc2 : ¬(r.valid = true ∧ target < r.value) := by
          intro hx; omega
        rw [if_pos hv, if_neg hne, if_pos hl, if_pos hc1, if_neg hc2,
          if_gt_eq_max nl (r.offset / 8 + 1), max_comm nl (r.offset / 8 + 1)]
        rw [max_comm (r.offset / 8 + 1) nl] at *
        exact ih (max nl (r.offset / 8 + 1)) nh hrest
      · have hgt : target < r.value := by omega
        have hc1 : ¬(r.valid = true ∧ r.value < target) := by intro hx; omega
        have hc2 : r.valid = true ∧ target < r.value := ⟨hv, hgt⟩
        rw [if_pos hv, if_neg hne, if_neg hl, if_neg hc1, if_pos hc2,
          if_lt_eq_min nh (r.offset / 8 - 1), min_comm nh (r.offset / 8 - 1)]
        rw [min_comm (r.offset / 8 - 1) nh] at *
        exact ih nl (min nh (r.offset / 8 - 1)) hrest
    · have hc1 : ¬(r.valid = true ∧ r.value < target) := fun hx => hv hx.1
      have hc2 : ¬(r.valid = true ∧ target < r.value) := fun hx => hv hx.1
      rw [if_neg hv, if_neg hc1, if_neg hc2]
      exact ih nl nh hrest

theorem le_narrowSpecLo_init (target : Nat) :
    ∀ (l : List ReadData) (a : Int), a ≤ narrowSpecLo target l a := by
  intro l
  induction l with
  | nil => intro a; simp [narrowSpecLo]
  | cons r rest ih =>
    intro a
    rw [narrowSpecLo_cons]
    have h1 : a ≤ (if r.valid = true ∧ r.value < target then max a (r.offset / 8 + 1) else a) := by
      split <;> omega
    exact le_trans h1 (ih _)

theorem narrowSpecHi_init_le (target : Nat) :
    ∀ (l : List ReadData) (a : Int), narrowSpecHi target l a ≤ a := by
  intro l
  induction l with
  | nil => intro a; simp [narrowSpecHi]
  | cons r rest ih =>
    intro a
    rw [narrowSpecHi_cons]
    have h1 : (if r.valid = true ∧ target < r.value then min a (r.offset / 8 - 1) else a) ≤ a := by
      split <;> omega
    exact le_trans (ih _) h1

theorem le_narrowSpecLo_of_mem (target : Nat) :
    ∀ (l : List ReadData) (a : Int) (r : ReadData), r ∈ l → r.valid = true →
      r.value < target → r.offset / 8 + 1 ≤ narrowSpecLo target l a := by
  intro l
  induction l with
  | nil => intro a r hr; exact absurd hr (List.not_mem_nil r)
  | cons q rest ih =>
    intro a r hr hv hl
    rw [narrowSpecLo_cons]
    rcases List.mem_cons.mp hr with he | hm
    · subst he
      have hc : r.valid = true ∧ r.value < target := ⟨hv, hl⟩
      rw [if_pos hc]
      have h1 : r.offset / 8 + 1 ≤ max a (r.offset / 8 + 1) := by omega
      exact le_trans h1 (le_narrowSpecLo_init target rest _)
    · exact ih _ r hm hv hl

theorem narrowSpecHi_le_of_mem (target : Nat) :
    ∀ (l : List ReadData) (a : Int) (r : ReadData), r ∈ l → r.valid = true →
      target < r.value → narrowSpecHi target l a ≤ r.offset / 8 - 1 := by
  intro l
  induction l with
  | nil => intro a r hr; exact absurd hr (List.not_mem_nil r)
  | cons q rest ih =>
    intro a r hr hv hl
    rw [narrowSpecHi_cons]
    rcases List.mem_cons.mp hr with he | hm
    · subst he
      have hc : r.valid = true ∧ target < r.value := ⟨hv, hl⟩
      rw [if_pos hc]
      have h1 : min a (r.offset / 8 - 1) ≤ r.offset / 8 - 1 := by omega
      exact le_trans (narrowSpecHi_init_le target rest _) h1
    · exact ih _ r hm hv hl

theorem narrowSpecLo_le_bound (target : Nat) :
    ∀ (l : List ReadData) (a X : Int), a ≤ X →
      (∀ r ∈ l, r.valid = true → r.value < target → r.offset / 8 + 1 ≤ X) →
      narrowSpecLo target l a ≤ X := by
  intro l
  induction l with
  | nil => intro a X ha _; simpa [narrowSpecLo] using ha
  | cons r rest ih =>
    intro a X ha hall
    rw [narrowSpecLo_cons]
    apply ih
    · split
      · rename_i hc
        have := hall r (List.mem_cons_self r rest) hc.1 hc.2
        omega
      · exact ha
    · exact fun q hq => hall q (List.mem_cons_of_mem r hq)

theorem bound_le_narrowSpecHi (target : Nat) :
    ∀ (l : List ReadData) (a X : Int), X ≤ a →
      (∀ r ∈ l, r.valid = true → target < r.value → X ≤ r.offset / 8 - 1) →
      X ≤ narrowSpecHi target l a := by
  intro l
  induction l with
  | nil => intro a X ha _; simpa [narrowSpecHi] using ha
  | cons r rest ih =>
    intro a X ha hall
    rw [narrowSpecHi_cons]
    apply ih
    · split
      · rename_i hc
        have := hall r (List.mem_cons_self r rest) hc.1 hc.2
        omega
      · exact ha
    · exact fun q hq => hall q (List.mem_cons_of_mem r hq)

/-! ## Facts about one round of the search -/

theorem mem_mkReads (arr : List Nat) (lo hi : Int) (io : Nat → Int) (r : ReadData) :
    r ∈ mkReads arr lo hi io ↔
      ∃ i, i < activeReads (hi - lo) ∧
        r = mkRead arr lo hi (stepSize (hi - lo) (activeReads (hi - lo))) io i := by
  simp only [mkReads, List.mem_map, List.mem_range]
  constructor
  · rintro ⟨i, hi1, hi2⟩; exact ⟨i, hi1, hi2.symm⟩
  · rintro ⟨i, hi1, hi2⟩; exact ⟨i, hi1, hi2.symm⟩

theorem mkRead_offset_div (arr : List Nat) (lo hi step : Int) (io : Nat → Int) (i : Nat) :
    (mkRead arr lo hi step io i).offset / 8 = probePos lo hi step i := by
  simp only [mkRead]
  exact Int.mul_ediv_cancel _ (by norm_num)

theorem searchStep_linear (arr : List Nat) (target : Nat) (ur : Bool) (thr : Int)
    (io : Nat → Int) (lo hi : Int) (res : Option Int)
    (h : searchStep arr target ur thr io lo hi = .linearDone res) :
    (ur = true ∧ hi - lo ≤ thr) ∧ res = linearScan arr target lo hi := by
  unfold searchStep at h
  by_cases hg : ur = true ∧ hi - lo ≤ thr
  · rw [if_pos hg] at h
    exact ⟨hg, (RoundResult.linearDone.inj h).symm⟩
  · rw [if_neg hg] at h
    rcases hs : scanHit target (mkReads arr lo hi io) with _ | off
    · rw [hs] at h
      rcases hn : narrowLoop target (mkReads arr lo hi io) lo hi with ⟨nl, nh, hit⟩
      rw [hn] at h
      rcases hit with _ | off2 <;> simp at h
    · rw [hs] at h
      simp at h

theorem searchStep_hit (arr : List Nat) (target : Nat) (ur : Bool) (thr : Int)
    (io : Nat → Int) (lo hi off : Int)
    (h : searchStep arr target ur thr io lo hi = .hit off) :
    ∃ i, i < activeReads (hi - lo) ∧
      off = probePos lo hi (stepSize (hi - lo) (activeReads (hi - lo))) i * 8 ∧
      arr.getD (probePos lo hi (stepSize (hi - lo) (activeReads (hi - lo))) i).toNat 0 = target ∧
      io i = 8 := by
  unfold searchStep at h
  by_cases hg : ur = true ∧ hi - lo ≤ thr
  · rw [if_pos hg] at h; simp at h
  · rw [if_neg hg] at h
    rcases hs : scanHit target (mkReads arr lo hi io) with _ | off2
    · rw [hs] at h
      have hnone := scanHit_none target _ hs
      rw [narrowLoop_nohit target _ lo hi hnone] at h
      simp at h
    · rw [hs] at h
      have hoff : off2 = off := by simpa using h
      subst hoff
      rcases scanHit_some target _ _ hs with ⟨r, hmem, hv, hval, hoff⟩
      rcases (mem_mkReads arr lo hi io r).mp hmem with ⟨i, hilt, hieq⟩
      refine ⟨i, hilt, ?_, ?_, ?_⟩
      · rw [← hoff, hieq]; rfl
      · rw [← hval, hieq]; rfl
      · have : r.valid = (io i == 8) := by rw [hieq]; rfl
        rw [this] at hv
        exact beq_iff_eq.mp hv

theorem searchStep_cont (arr : List Nat) (target : Nat) (ur : Bool) (thr : Int)
    (io : Nat → Int) (lo hi lo' hi' : Int)
    (h : searchStep arr target ur thr io lo hi = .cont lo' hi') :
    ¬(ur = true ∧ hi - lo ≤ thr) ∧
      scanHit target (mkReads arr lo hi io) = none ∧
      lo' = narrowSpecLo target (mkReads arr lo hi io) lo ∧
      hi' = narrowSpecHi target (mkReads arr lo hi io) hi := by
  unfold searchStep at h
  by_cases hg : ur = true ∧ hi - lo ≤ thr
  · rw [if_pos hg] at h; simp at h
  · rw [if_neg hg] at h
    rcases hs : scanHit target (mkReads arr lo hi io) with _ | off2
    · rw [hs] at h
      have hnone := scanHit_none target _ hs
      rw [narrowLoop_nohit target _ lo hi hnone] at h
      have := RoundResult.cont.inj h
      exact ⟨hg, rfl, this.1.symm, this.2.symm⟩
    · rw [hs] at h
      simp at h

theorem stepSize_eq (range : Int) (active : Nat) :
    stepSize range active =
      if range / ((active : Int) + 1) = 0 then 1 else range / ((active : Int) + 1) := rfl

theorem probePos_eq (lo hi step : Int) (i : Nat) :
    probePos lo hi step i =
      if lo + step * ((i : Int) + 1) > hi then hi else lo + step * ((i : Int) + 1) := rfl

theorem probe0_facts (lo hi : Int) (h0 : 0 ≤ lo) (hlh : lo ≤ hi) :
    lo ≤ probePos lo hi (stepSize (hi - lo) (activeReads (hi - lo))) 0 ∧
      probePos lo hi (stepSize (hi - lo) (activeReads (hi - lo))) 0 ≤ hi ∧
      5 * (hi - probePos lo hi (stepSize (hi - lo) (activeReads (hi - lo))) 0) ≤
        4 * (hi - lo + 1) ∧
      5 * (probePos lo hi (stepSize (hi - lo) (activeReads (hi - lo))) 0 - lo) ≤
        4 * (hi - lo + 1) := by
  by_cases h4 : hi - lo > (PARALLEL_READS : Int) * 100
  · have ha : activeReads (hi - lo) = 4 := by
      unfold activeReads PARALLEL_READS
      unfold PARALLEL_READS at h4
      rw [if_pos h4]
    have h4' : hi - lo > 400 := by
      unfold PARALLEL_READS at h4
      push_cast at h4
      omega
    rw [ha, stepSize_eq, probePos_eq]
    push_cast
    split_ifs <;> omega
  · have ha : activeReads (hi - lo) = 1 := by
      unfold activeReads PARALLEL_READS
      unfold PARALLEL_READS at h4
      rw [if_neg h4]
    have h4' : ¬(hi - lo > 400) := by
      unfold PARALLEL_READS at h4
      push_cast at h4
      omega
    rw [ha, stepSize_eq, probePos_eq]
    push_cast
    split_ifs <;> omega

theorem getD_eq_get (l : List Nat) (i : Nat) (h : i < l.length) :
    l.getD i 0 = l.get ⟨i, h⟩ := by
  rw [List.getD_eq_getElem?_getD, List.getElem?_eq_getElem h]
  rfl

theorem sorted_getD (arr : List Nat) (hs : arr.Pairwise (· ≤ ·)) (i j : Nat)
    (hij : i ≤ j) (hj : j < arr.length) : arr.getD i 0 ≤ arr.getD j 0 := by
  rcases eq_or_lt_of_le hij with he | hlt
  · subst he; exact le_refl _
  · rw [getD_eq_get arr i (lt_trans hlt hj), getD_eq_get arr j hj]
    exact List.pairwise_iff_get.mp hs ⟨i, lt_trans hlt hj⟩ ⟨j, hj⟩ hlt

theorem searchStep_cont_shrink (arr : List Nat) (target : Nat) (ur : Bool) (thr : Int)
    (lo hi lo' hi' : Int) (h0 : 0 ≤ lo) (hlh : lo ≤ hi)
    (h : searchStep arr target ur thr allReadsOk lo hi = .cont lo' hi') :
    lo ≤ lo' ∧ hi' ≤ hi ∧ 5 * (hi' - lo' + 1) ≤ 4 * (hi - lo + 1) := by
  rcases searchStep_cont arr target ur thr allReadsOk lo hi lo' hi' h with
    ⟨hg, hscan, hlo, hhi⟩
  have hlo_ge : lo ≤ lo' := by rw [hlo]; exact le_narrowSpecLo_init target _ lo
  have hhi_le : hi' ≤ hi := by rw [hhi]; exact narrowSpecHi_init_le target _ hi
  refine ⟨hlo_ge, hhi_le, ?_⟩
  have hmem : mkRead arr lo hi (stepSize (hi - lo) (activeReads (hi - lo))) allReadsOk 0 ∈
      mkReads arr lo hi allReadsOk := by
    rw [mem_mkReads]
    exact ⟨0, activeReads_pos _, rfl⟩
  have hvalid :
      (mkRead arr lo hi (stepSize (hi - lo) (activeReads (hi - lo))) allReadsOk 0).valid =
        true := by
    simp [mkRead, allReadsOk]
  have hne := scanHit_none target _ hscan _ hmem hvalid
  have hidx :
      (mkRead arr lo hi (stepSize (hi - lo) (activeReads (hi - lo))) allReadsOk 0).offset / 8 =
        probePos lo hi (stepSize (hi - lo) (activeReads (hi - lo))) 0 :=
    mkRead_offset_div arr lo hi _ allReadsOk 0
  rcases probe0_facts lo hi h0 hlh with ⟨hpl, hph, har1, har2⟩
  rcases lt_trichotomy
      (mkRead arr lo hi (stepSize (hi - lo) (activeReads (hi - lo))) allReadsOk 0).value
      target with hcase | hcase | hcase
  · have hcontrib := le_narrowSpecLo_of_mem target _ lo _ hmem hvalid hcase
    rw [hidx] at hcontrib
    rw [← hlo] at hcontrib
    omega
  · exact absurd hcase hne
  · have hcontrib := narrowSpecHi_le_of_mem target _ hi _ hmem hvalid hcase
    rw [hidx] at hcontrib
    rw [← hhi] at hcontrib
    omega

theorem searchStep_cont_keeps_witness (arr : List Nat) (target : Nat) (ur : Bool) (thr : Int)
    (io : Nat → Int) (lo hi lo' hi' : Int) (hsort : arr.Pairwise (· ≤ ·))
    (k : Nat) (hk : k < arr.length) (hkt : arr.getD k 0 = target)
    (hlok : lo ≤ (k : Int)) (hkhi : (k : Int) ≤ hi)
    (hhiN : hi < (arr.length : Int)) (h0 : 0 ≤ lo)
    (h : searchStep arr target ur thr io lo hi = .cont lo' hi') :
    lo' ≤ (k : Int) ∧ (k : Int) ≤ hi' := by
  have hlh : lo ≤ hi := le_trans hlok hkhi
  have hstep1 : 1 ≤ stepSize (hi - lo) (activeReads (hi - lo)) :=
    stepSize_pos _ _ (by omega)
  rcases searchStep_cont arr target ur thr io lo hi lo' hi' h with ⟨hg, hscan, hlo, hhi⟩
  constructor
  · rw [hlo]
    apply narrowSpecLo_le_bound target _ lo _ hlok
    intro r hmem hv hval
    rcases (mem_mkReads arr lo hi io r).mp hmem with ⟨i, hilt, hieq⟩
    have hpb := probePos_bounds lo hi (stepSize (hi - lo) (activeReads (hi - lo))) i hlh hstep1
    have hidx : r.offset / 8 = probePos lo hi (stepSize (hi - lo) (activeReads (hi - lo))) i := by
      rw [hieq]; exact mkRead_offset_div arr lo hi _ io i
    have hvv : r.value =
        arr.getD (probePos lo hi (stepSize (hi - lo) (activeReads (hi - lo))) i).toNat 0 := by
      rw [hieq]; rfl
    have hp_lt_k : probePos lo hi (stepSize (hi - lo) (activeReads (hi - lo))) i < (k : Int) := by
      by_contra hcon
      push_neg at hcon
      have hgetle : arr.getD k 0 ≤
          arr.getD (probePos lo hi (stepSize (hi - lo) (activeReads (hi - lo))) i).toNat 0 := by
        apply sorted_getD arr hsort
        · omega
        · omega
      rw [hvv] at hval
      omega
    rw [hidx]
    omega
  · rw [hhi]
    apply bound_le_narrowSpecHi target _ hi _ hkhi
    intro r hmem hv hval
    rcases (mem_mkReads arr lo hi io r).mp hmem with ⟨i, hilt, hieq⟩
    have hpb := probePos_bounds lo hi (stepSize (hi - lo) (activeReads (hi - lo))) i hlh hstep1
    have hidx : r.offset / 8 = probePos lo hi (stepSize (hi - lo) (activeReads (hi - lo))) i := by
      rw [hieq]; exact mkRead_offset_div arr lo hi _ io i
    have hvv : r.value =
        arr.getD (probePos lo hi (stepSize (hi - lo) (activeReads (hi - lo))) i).toNat 0 := by
      rw [hieq]; rfl
    have hk_lt_p : (k : Int) < probePos lo hi (stepSize (hi - lo) (activeReads (hi - lo))) i := by
      by_contra hcon
      push_neg at hcon
      have hgetle :
          arr.getD (probePos lo hi (stepSize (hi - lo) (activeReads (hi - lo))) i).toNat 0 ≤
            arr.getD k 0 := by
        apply sorted_getD arr hsort
        · omega
        · exact hk
      rw [hvv] at hval
      omega
    rw [hidx]
    omega

/-! ## Facts about the linear-scan fallback -/

theorem scanFrom_none (arr : List Nat) (target : Nat) :
    ∀ (n : Nat) (lo : Int),
      (∀ j : Nat, j < n → arr.getD (lo + (j : Int)).toNat 0 ≠ target) →
      scanFrom arr target lo n = none := by
  intro n
  induction n with
  | zero => intro lo _; rfl
  | succ m ih =>
    intro lo hno
    have h0 : arr.getD lo.toNat 0 ≠ target := by
      have := hno 0 (Nat.succ_pos m)
      simpa using this
    unfold scanFrom
    rw [if_neg h0]
    apply ih
    intro j hj
    have := hno (j + 1) (by omega)
    have harg : lo + ((j : Int) + 1) = lo + 1 + (j : Int) := by ring
    push_cast at this
    rw [harg] at this
    exact this

theorem scanFrom_some_good (arr : List Nat) (target : Nat) :
    ∀ (n : Nat) (lo off : Int), 0 ≤ lo →
      scanFrom arr target lo n = some off →
      0 ≤ off ∧ off % 8 = 0 ∧ lo ≤ off / 8 ∧ off / 8 < lo + (n : Int) ∧
        arr.getD (off / 8).toNat 0 = target := by
  intro n
  induction n with
  | zero => intro lo off _ h; exact Option.noConfusion h
  | succ m ih =>
    intro lo off hlo h
    unfold scanFrom at h
    by_cases h0 : arr.getD lo.toNat 0 = target
    · rw [if_pos h0] at h
      have hoff : off = lo * 8 := (Option.some.inj h).symm
      subst hoff
      have hdiv : lo * 8 / 8 = lo := Int.mul_ediv_cancel _ (by norm_num)
      refine ⟨by positivity, Int.mul_emod_left lo 8, ?_, ?_, ?_⟩
      · omega
      · omega
      · rw [hdiv]; exact h0
    · rw [if_neg h0] at h
      have := ih (lo + 1) off (by omega) h
      push_cast
      push_cast at this
      refine ⟨this.1, this.2.1, by omega, by omega, this.2.2.2.2⟩

theorem scanFrom_finds (arr : List Nat) (target : Nat) :
    ∀ (n : Nat) (lo : Int),
      (∃ j : Nat, j < n ∧ arr.getD (lo + (j : Int)).toNat 0 = target) →
      ∃ off, scanFrom arr target lo n = some off := by
  intro n
  induction n with
  | zero => rintro lo ⟨j, hj, _⟩; omega
  | succ m ih =>
    rintro lo ⟨j, hj, hget⟩
    unfold scanFrom
    by_cases h0 : arr.getD lo.toNat 0 = target
    · rw [if_pos h0]; exact ⟨lo * 8, rfl⟩
    · rw [if_neg h0]
      apply ih
      rcases j with _ | j2
      · rw [show lo + ((0 : Nat) : Int) = lo by push_cast; ring] at hget
        exact absurd hget h0
      · refine ⟨j2, by omega, ?_⟩
        have harg : lo + 1 + (j2 : Int) = lo + ((j2 : Int) + 1) := by ring
        rw [harg]
        push_cast at hget
        exact hget

/-! ## Facts about the main loop -/

theorem searchLoop_succ (arr : List Nat) (target : Nat) (ur : Bool) (thr : Int)
    (fuel : Nat) (lo hi : Int) :
    searchLoop arr target ur thr (fuel + 1) lo hi =
      if hi < lo then some .notFound
      else
        match searchStep arr target ur thr allReadsOk lo hi with
        | .hit off => some (.found off)
        | .linearDone (some off) => some (.found off)
        | .linearDone none => some .notFound
        | .cont lo' hi' => searchLoop arr target ur thr fuel lo' hi' := rfl

theorem searchStep_hit_good (arr : List Nat) (target : Nat) (ur : Bool) (thr : Int)
    (io : Nat → Int) (lo hi off : Int)
    (h0 : 0 ≤ lo) (hlh : lo ≤ hi) (hhiN : hi < (arr.length : Int))
    (h : searchStep arr target ur thr io lo hi = .hit off) :
    GoodOff arr target off := by
  rcases searchStep_hit arr target ur thr io lo hi off h with ⟨i, hilt, hoff, hval, hio⟩
  have hstep1 : 1 ≤ stepSize (hi - lo) (activeReads (hi - lo)) :=
    stepSize_pos _ _ (by omega)
  have hpb := probePos_bounds lo hi (stepSize (hi - lo) (activeReads (hi - lo))) i hlh hstep1
  subst hoff
  have hdiv : probePos lo hi (stepSize (hi - lo) (activeReads (hi - lo))) i * 8 / 8 =
      probePos lo hi (stepSize (hi - lo) (activeReads (hi - lo))) i :=
    Int.mul_ediv_cancel _ (by norm_num)
  refine ⟨by omega, Int.mul_emod_left _ 8, ?_, ?_⟩
  · rw [hdiv]; omega
  · rw [hdiv]; exact hval

theorem fuel_step (fuel : Nat) (a b : Int)
    (hcontr : 5 * b ≤ 4 * a) (h0 : 0 ≤ a)
    (hf : 4 ^ (fuel + 1) * a.toNat < 5 ^ (fuel + 1)) :
    4 ^ fuel * b.toNat < 5 ^ fuel := by
  have hb : 5 * b.toNat ≤ 4 * a.toNat := by omega
  have h3 : 5 * (4 ^ fuel * b.toNat) ≤ 4 ^ fuel * (4 * a.toNat) := by
    calc 5 * (4 ^ fuel * b.toNat) = 4 ^ fuel * (5 * b.toNat) := by ring
    _ ≤ 4 ^ fuel * (4 * a.toNat) := Nat.mul_le_mul_left _ hb
  have h4 : 4 ^ fuel * (4 * a.toNat) = 4 ^ (fuel + 1) * a.toNat := by ring
  have h5 : (5 : Nat) ^ (fuel + 1) = 5 * 5 ^ fuel := by ring
  omega

theorem searchLoop_finds (arr : List Nat) (target : Nat) (ur : Bool) (thr : Int)
    (hsort : arr.Pairwise (· ≤ ·)) (k : Nat) (hk : k < arr.length)
    (hkt : arr.getD k 0 = target) :
    ∀ (fuel : Nat) (lo hi : Int), 0 ≤ lo → hi < (arr.length : Int) →
      lo ≤ (k : Int) → (k : Int) ≤ hi →
      4 ^ fuel * (hi - lo + 1).toNat < 5 ^ fuel →
      ∃ off, searchLoop arr target ur thr (fuel + 1) lo hi = some (.found off) ∧
        GoodOff arr target off := by
  intro fuel
  induction fuel with
  | zero =>
    intro lo hi h0 hN hlok hkhi hf
    have hf' : (hi - lo + 1).toNat < 1 := by simpa using hf
    omega
  | succ m ih =>
    intro lo hi h0 hN hlok hkhi hf
    have hlh : lo ≤ hi := le_trans hlok hkhi
    rw [searchLoop_succ, if_neg (by omega : ¬hi < lo)]
    rcases hstep : searchStep arr target ur thr allReadsOk lo hi with off | res | ⟨lo', hi'⟩
    · exact ⟨off, rfl, searchStep_hit_good arr target ur thr allReadsOk lo hi off h0 hlh hN hstep⟩
    · rcases searchStep_linear arr target ur thr allReadsOk lo hi res hstep with ⟨hguard, hres⟩
      have hfind : ∃ off, scanFrom arr target lo (hi - lo + 1).toNat = some off := by
        apply scanFrom_finds
        refine ⟨((k : Int) - lo).toNat, by omega, ?_⟩
        have harg : lo + ((((k : Int) - lo).toNat : Nat) : Int) = (k : Int) := by omega
        rw [harg, Int.toNat_natCast]
        exact hkt
      rcases hfind with ⟨off, hoff⟩
      have hgood := scanFrom_some_good arr target (hi - lo + 1).toNat lo off h0 hoff
      have hres2 : res = some off := by
        rw [hres]; unfold linearScan; exact hoff
      rw [hres2]
      obtain ⟨hnn, hmod, hge, hlt, hget⟩ := hgood
      exact ⟨off, rfl, hnn, hmod, by omega, hget⟩
    · rcases searchStep_cont_shrink arr target ur thr lo hi lo' hi' h0 hlh hstep with
        ⟨hg1, hg2, hcontr⟩
      rcases searchStep_cont_keeps_witness arr target ur thr allReadsOk lo hi lo' hi' hsort
        k hk hkt hlok hkhi hN h0 hstep with ⟨hw1, hw2⟩
      exact ih lo' hi' (by omega) (by omega) hw1 hw2 (fuel_step m _ _ hcontr (by omega) hf)

theorem searchLoop_rejects (arr : List Nat) (target : Nat) (ur : Bool) (thr : Int)
    (habs : ∀ i : Nat, i < arr.length → arr.getD i 0 ≠ target) :
    ∀ (fuel : Nat) (lo hi : Int), 0 ≤ lo → hi < (arr.length : Int) →
      4 ^ fuel * (hi - lo + 1).toNat < 5 ^ fuel →
      searchLoop arr target ur thr (fuel + 1) lo hi = some .notFound := by
  intro fuel
  induction fuel with
  | zero =>
    intro lo hi h0 hN hf
    have hf' : (hi - lo + 1).toNat < 1 := by simpa using hf
    rw [searchLoop_succ, if_pos (by omega)]
  | succ m ih =>
    intro lo hi h0 hN hf
    by_cases hlh : hi < lo
    · rw [searchLoop_succ, if_pos hlh]
    · push_neg at hlh
      rw [searchLoop_succ, if_neg (by omega : ¬hi < lo)]
      rcases hstep : searchStep arr target ur thr allReadsOk lo hi with off | res | ⟨lo', hi'⟩
      · exfalso
        have hgood := searchStep_hit_good arr target ur thr allReadsOk lo hi off h0 hlh hN hstep
        exact habs _ hgood.2.2.1 hgood.2.2.2
      · rcases searchStep_linear arr target ur thr allReadsOk lo hi res hstep with ⟨hguard, hres⟩
        have hnone : scanFrom arr target lo (hi - lo + 1).toNat = none := by
          apply scanFrom_none
          intro j hj
          exact habs _ (by omega)
        have hres2 : res = none := by
          rw [hres]; unfold linearScan; exact hnone
        rw [hres2]
      · rcases searchStep_cont_shrink arr target ur thr lo hi lo' hi' h0 hlh hstep with
          ⟨hg1, hg2, hcontr⟩
        exact ih lo' hi' (by omega) (by omega) (fuel_step m _ _ hcontr (by omega) hf)

theorem engineFuel_ok (N : Nat) :
    4 ^ (4 * Nat.log 2 N + 5) * N < 5 ^ (4 * Nat.log 2 N + 5) := by
  set L := Nat.log 2 N with hL
  have h1 : N < 2 ^ (L + 1) := Nat.lt_pow_succ_log_self (by norm_num) N
  have h2 : (4 : Nat) ^ (4 * L + 5) * N < 4 ^ (4 * L + 5) * 2 ^ (L + 1) :=
    mul_lt_mul_of_pos_left h1 (by positivity)
  have h3 : (4 : Nat) ^ (4 * L + 5) * 2 ^ (L + 1) = 2 ^ (9 * L + 11) := by
    rw [show (4 : Nat) = 2 ^ 2 by norm_num, ← pow_mul, ← pow_add]
    congr 1
    ring
  have e1 : (2 : Nat) ^ (9 * L + 11) = 4 * (2 ^ 9) ^ (L + 1) := by
    rw [← pow_mul, show (4 : Nat) = 2 ^ 2 by norm_num, ← pow_add]
    congr 1
    ring
  have e2 : (5 : Nat) ^ (4 * L + 5) = 5 * (5 ^ 4) ^ (L + 1) := by
    rw [← pow_mul, ← pow_succ']
    congr 1
  have h4 : (2 : Nat) ^ (9 * L + 11) ≤ 5 ^ (4 * L + 5) := by
    rw [e1, e2]
    exact Nat.mul_le_mul (by norm_num) (Nat.pow_le_pow_left (by norm_num) (L + 1))
  omega

theorem initRing_ideal (usq ub : Bool) : initRing usq ub idealEnv = some (usq, ub) := by
  cases usq <;> cases ub <;> rfl

theorem binary_search_eq_loop (arr : List Nat) (target : Nat) (usq ub ur : Bool)
    (hne : arr.length ≠ 0) :
    binary_search_uint64 arr target usq ub ur =
      searchLoop arr target ur LINEAR_SEARCH_THRESHOLD (searchFuel arr.length) 0
        ((arr.length : Int) - 1) := by
  unfold binary_search_uint64 runSearch
  rw [if_neg hne, initRing_ideal]

theorem mem_getD (arr : List Nat) (target : Nat) (h : target ∈ arr) :
    ∃ k, k < arr.length ∧ arr.getD k 0 = target := by
  rcases List.mem_iff_get.mp h with ⟨⟨k, hk⟩, hget⟩
  exact ⟨k, hk, by rw [getD_eq_get arr k hk]; exact hget⟩

theorem not_mem_getD (arr : List Nat) (target : Nat) (h : target ∉ arr) :
    ∀ i : Nat, i < arr.length → arr.getD i 0 ≠ target := by
  intro i hi hit
  apply h
  rw [← hit, getD_eq_get arr i hi]
  exact arr.get_mem i hi

/-! ## Claim theorems -/

/-- C1: For every sorted (non-decreasing) array file and every target value
that occurs in the array, the engine returns Found together with the byte
offset of some element whose value equals the target (any element of a
duplicate run is acceptable), for every combination of the configuration
flags (polling on/off, zero-copy on/off, readahead on/off). -/
theorem found_present_all_configs (arr : List Nat) (target : Nat)
    (use_sqpoll use_buffers use_readahead : Bool)
    (hsort : arr.Pairwise (· ≤ ·)) (hmem : target ∈ arr) :
    ∃ off, binary_search_uint64 arr target use_sqpoll use_buffers use_readahead =
        some (.found off) ∧ GoodOff arr target off := by
  rcases mem_getD arr target hmem with ⟨k, hk, hkt⟩
  have hne : arr.length ≠ 0 := by omega
  rw [binary_search_eq_loop arr target _ _ _ hne]
  have hfuel : searchFuel arr.length = 4 * Nat.log 2 arr.length + 5 + 1 := by
    unfold searchFuel; omega
  rw [hfuel]
  apply searchLoop_finds arr target use_readahead LINEAR_SEARCH_THRESHOLD hsort k hk hkt
  · exact le_refl 0
  · omega
  · exact_mod_cast Nat.zero_le k
  · omega
  · have hm : (((arr.length : Int) - 1) - 0 + 1).toNat = arr.length := by omega
    rw [hm]
    exact engineFuel_ok arr.length

/-- Witness for C1: searching for 5 in the sorted array [2, 5, 5, 9] (a
duplicate run at the target) returns Found at offset 8, the byte offset of
an element equal to 5. -/
theorem found_present_all_configs_witness :
    (∃ off, binary_search_uint64 [2, 5, 5, 9] 5 true true true =
        some (.found off) ∧ GoodOff [2, 5, 5, 9] 5 off) ∧
      binary_search_uint64 [2, 5, 5, 9] 5 true true true = some (.found 8) :=
  ⟨found_present_all_configs [2, 5, 5, 9] 5 true true true (by decide) (by decide), by decide⟩

/-- C2: For every sorted array file and every target value absent from the
array, the engine terminates and returns NotFound, and the number of loop
iterations is bounded by `4 * log2 N + 5` probing rounds plus one terminal
round, which is O(log N): the second conjunct states that the loop, run
with exactly that much fuel, completes with NotFound. -/
theorem notFound_absent_terminates (arr : List Nat) (target : Nat)
    (use_sqpoll use_buffers use_readahead : Bool)
    (hsort : arr.Pairwise (· ≤ ·)) (hne : arr ≠ []) (habs : target ∉ arr) :
    binary_search_uint64 arr target use_sqpoll use_buffers use_readahead = some .notFound ∧
      searchLoop arr target use_readahead LINEAR_SEARCH_THRESHOLD
        (4 * Nat.log 2 arr.length + 6) 0 ((arr.length : Int) - 1) = some .notFound := by
  have hlen : arr.length ≠ 0 := by
    intro h; exact hne (List.length_eq_zero.mp h)
  have habs' := not_mem_getD arr target habs
  have hloop : searchLoop arr target use_readahead LINEAR_SEARCH_THRESHOLD
      (4 * Nat.log 2 arr.length + 6) 0 ((arr.length : Int) - 1) = some .notFound := by
    have hsplit : 4 * Nat.log 2 arr.length + 6 = 4 * Nat.log 2 arr.length + 5 + 1 := by omega
    rw [hsplit]
    apply searchLoop_rejects arr target use_readahead LINEAR_SEARCH_THRESHOLD habs'
    · exact le_refl 0
    · omega
    · have hm : (((arr.length : Int) - 1) - 0 + 1).toNat = arr.length := by omega
      rw [hm]
      exact engineFuel_ok arr.length
  refine ⟨?_, hloop⟩
  rw [binary_search_eq_loop arr target _ _ _ hlen]
  have hfuel : searchFuel arr.length = 4 * Nat.log 2 arr.length + 6 := rfl
  rw [hfuel]
  exact hloop

/-- Witness for C2: searching for 7 in [2, 5, 9] terminates with NotFound
within the logarithmic iteration bound. -/
theorem notFound_absent_terminates_witness :
    binary_search_uint64 [2, 5, 9] 7 false false true = some .notFound ∧
      searchLoop [2, 5, 9] 7 true LINEAR_SEARCH_THRESHOLD
        (4 * Nat.log 2 3 + 6) 0 ((3 : Int) - 1) = some .notFound := by
  have h := notFound_absent_terminates [2, 5, 9] 7 false false true (by decide) (by decide)
    (by decide)
  exact ⟨h.1, h.2⟩

theorem narrowLoop_hit (target : Nat) :
    ∀ (pre : List ReadData) (r : ReadData) (post : List ReadData) (nl nh : Int),
      r.valid = true → r.value = target →
      (∀ q ∈ pre, q.valid = true → q.value ≠ target) →
      narrowLoop target (pre ++ r :: post) nl nh =
        (narrowSpecLo target pre nl, narrowSpecHi target pre nh, some r.offset) := by
  intro pre
  induction pre with
  | nil =>
    intro r post nl nh hv hval _
    simp only [List.nil_append, narrowLoop, narrowSpecLo, narrowSpecHi, List.foldl_nil]
    rw [if_pos hv, if_pos hval]
  | cons q rest ih =>
    intro r post nl nh hv hval hno
    have hq : q.valid = true → q.value ≠ target := hno q (List.mem_cons_self q rest)
    have hrest : ∀ p ∈ rest, p.valid = true → p.value ≠ target :=
      fun p hp => hno p (List.mem_cons_of_mem q hp)
    rw [List.cons_append, narrowSpecLo_cons, narrowSpecHi_cons]
    simp only [narrowLoop]
    by_cases hqv : q.valid = true
    · have hqne : ¬(q.value = target) := hq hqv
      by_cases hql : q.value < target
      · have hc1 : q.valid = true ∧ q.value < target := ⟨hqv, hql⟩
        have hc2 : ¬(q.valid = true ∧ target < q.value) := by intro hx; omega
        rw [if_pos hqv, if_neg hqne, if_pos hql, if_pos hc1, if_neg hc2,
          if_gt_eq_max nl (q.offset / 8 + 1), max_comm nl (q.offset / 8 + 1)]
        rw [max_comm (q.offset / 8 + 1) nl] at *
        exact ih r post (max nl (q.offset / 8 + 1)) nh hv hval hrest
      · have hqgt : target < q.value := by omega
        have hc1 : ¬(q.valid = true ∧ q.value < target) := by intro hx; omega
        have hc2 : q.valid = true ∧ target < q.value := ⟨hqv, hqgt⟩
        rw [if_pos hqv, if_neg hqne, if_neg hql, if_neg hc1, if_pos hc2,
          if_lt_eq_min nh (q.offset / 8 - 1), min_comm nh (q.offset / 8 - 1)]
        rw [min_comm (q.offset / 8 - 1) nh] at *
        exact ih r post nl (min nh (q.offset / 8 - 1)) hv hval hrest
    · have hc1 : ¬(q.valid = true ∧ q.value < target) := fun hx => hqv hx.1
      have hc2 : ¬(q.valid = true ∧ target < q.value) := fun hx => hqv hx.1
      rw [if_neg hqv, if_neg hc1, if_neg hc2]
      exact ih r post nl nh hv hval hrest

/-- C3: The interval narrower, given the prior interval `(lo, hi)` and a
batch of completions, records a hit with the byte offset of the first
valid completion equal to the target and ends narrowing there; otherwise
each valid completion below the target raises the candidate lower bound to
its element index + 1, each valid completion above the target lowers the
candidate upper bound to its element index - 1, and the round's new
interval is the intersection of all candidate bounds with the prior
interval (`narrowSpecLo`/`narrowSpecHi` are those intersections, and they
satisfy `new_lo ≥ lo` and `new_hi ≤ hi`). -/
theorem narrower_spec (target : Nat) (l : List ReadData) (lo hi : Int) :
    ((∀ r ∈ l, r.valid = true → r.value ≠ target) →
      narrowLoop target l lo hi = (narrowSpecLo target l lo, narrowSpecHi target l hi, none) ∧
        lo ≤ narrowSpecLo target l lo ∧ narrowSpecHi target l hi ≤ hi) ∧
    (∀ (pre : List ReadData) (r : ReadData) (post : List ReadData),
      l = pre ++ r :: post → r.valid = true → r.value = target →
      (∀ q ∈ pre, q.valid = true → q.value ≠ target) →
      narrowLoop target l lo hi =
        (narrowSpecLo target pre lo, narrowSpecHi target pre hi, some r.offset)) := by
  constructor
  · intro hno
    exact ⟨narrowLoop_nohit target l lo hi hno, le_narrowSpecLo_init target l lo,
      narrowSpecHi_init_le target l hi⟩
  · intro pre r post hsplit hv hval hno
    rw [hsplit]
    exact narrowLoop_hit target pre r post lo hi hv hval hno

/-- Witness for C3: on the batch [(offset 8, value 3), (offset 16, value 7)]
with target 5 and prior interval (0, 10), the narrower intersects to
(2, 1) with no hit; on [(offset 8, value 3), (offset 16, value 5)] an exact
match at offset 16 records the hit and ends narrowing. -/
theorem narrower_spec_witness :
    narrowLoop 5 [⟨8, 3, true⟩, ⟨16, 7, true⟩] 0 10 =
        (narrowSpecLo 5 [⟨8, 3, true⟩, ⟨16, 7, true⟩] 0,
          narrowSpecHi 5 [⟨8, 3, true⟩, ⟨16, 7, true⟩] 10, none) ∧
      narrowLoop 5 [⟨8, 3, true⟩, ⟨16, 7, true⟩] 0 10 = (2, 1, none) ∧
      narrowLoop 5 [⟨8, 3, true⟩, ⟨16, 5, true⟩] 0 10 =
        (narrowSpecLo 5 [⟨8, 3, true⟩] 0, narrowSpecHi 5 [⟨8, 3, true⟩] 10, some 16) := by
  refine ⟨((narrower_spec 5 [⟨8, 3, true⟩, ⟨16, 7, true⟩] 0 10).1 (by decide)).1, by decide, ?_⟩
  exact (narrower_spec 5 [⟨8, 3, true⟩, ⟨16, 5, true⟩] 0 10).2
    [⟨8, 3, true⟩] ⟨16, 5, true⟩ [] rfl rfl rfl (by decide)

/-- C4: The probe scheduler issues the full configured probe count
(`PARALLEL_READS`) when `hi - lo` exceeds `PARALLEL_READS * 100` and
exactly 1 probe otherwise; the spacing is
`step = max(1, (hi - lo) / (active + 1))`, and the i-th probe is placed at
`lo + step * (i + 1)`, clamped so it never exceeds `hi`. -/
theorem scheduler_spec (lo hi : Int) (h : lo ≤ hi) :
    (hi - lo > (PARALLEL_READS : Int) * 100 → activeReads (hi - lo) = PARALLEL_READS) ∧
    (¬(hi - lo > (PARALLEL_READS : Int) * 100) → activeReads (hi - lo) = 1) ∧
    stepSize (hi - lo) (activeReads (hi - lo)) =
      max 1 ((hi - lo) / ((activeReads (hi - lo) : Int) + 1)) ∧
    (∀ i : Nat,
      probePos lo hi (stepSize (hi - lo) (activeReads (hi - lo))) i =
          min (lo + stepSize (hi - lo) (activeReads (hi - lo)) * ((i : Int) + 1)) hi ∧
        probePos lo hi (stepSize (hi - lo) (activeReads (hi - lo))) i ≤ hi) := by
  refine ⟨?_, ?_, ?_, ?_⟩
  · intro hgt; unfold activeReads; rw [if_pos hgt]
  · intro hle; unfold activeReads; rw [if_neg hle]
  · rw [stepSize_eq]
    have hd : 0 ≤ (hi - lo) / ((activeReads (hi - lo) : Int) + 1) :=
      Int.ediv_nonneg (by omega) (by positivity)
    split_ifs with h0 <;> omega
  · intro i
    rw [probePos_eq]
    constructor
    · omega
    · split_ifs <;> omega

/-- Witness for C4: with the interval (0, 1000) the scheduler uses all 4
probes with step 200, placing probe 3 at index 800. -/
theorem scheduler_spec_witness :
    activeReads ((1000 : Int) - 0) = PARALLEL_READS ∧
      stepSize ((1000 : Int) - 0) (activeReads ((1000 : Int) - 0)) = 200 ∧
      probePos 0 1000 200 3 = 800 :=
  ⟨(scheduler_spec 0 1000 (by decide)).1 (by decide), by decide, by decide⟩

theorem scanHit_all_invalid (target : Nat) :
    ∀ l : List ReadData, (∀ r ∈ l, r.valid = false) → scanHit target l = none := by
  intro l
  induction l with
  | nil => intro _; rfl
  | cons r rest ih =>
    intro hall
    have hr : r.valid = false := hall r (List.mem_cons_self r rest)
    unfold scanHit
    simp only [List.foldl_cons]
    rw [if_neg (by rw [hr]; rintro ⟨h1, _⟩; exact Bool.noConfusion h1)]
    exact ih fun q hq => hall q (List.mem_cons_of_mem r hq)

theorem narrowLoop_all_invalid (target : Nat) :
    ∀ (l : List ReadData) (nl nh : Int), (∀ r ∈ l, r.valid = false) →
      narrowLoop target l nl nh = (nl, nh, none) := by
  intro l
  induction l with
  | nil => intro nl nh _; rfl
  | cons r rest ih =>
    intro nl nh hall
    have hr : r.valid = false := hall r (List.mem_cons_self r rest)
    simp only [narrowLoop]
    rw [if_neg (by rw [hr]; exact Bool.noConfusion)]
    exact ih nl nh fun q hq => hall q (List.mem_cons_of_mem r hq)

/-- C9: In a probing round in which no probe completes successfully (every
completion result differs from the full 8-byte read count, so no probe is
marked valid), the interval `(lo, hi)` is left completely unchanged:
invalid probes are skipped and contribute no bound. -/
theorem failed_round_frame (arr : List Nat) (target : Nat) (ur : Bool) (thr : Int)
    (io : Nat → Int) (lo hi : Int)
    (hfail : ∀ i : Nat, io i ≠ 8)
    (hnl : ¬(ur = true ∧ hi - lo ≤ thr)) :
    searchStep arr target ur thr io lo hi = .cont lo hi := by
  have hinv : ∀ r ∈ mkReads arr lo hi io, r.valid = false := by
    intro r hr
    rcases (mem_mkReads arr lo hi io r).mp hr with ⟨i, hilt, hieq⟩
    rw [hieq]
    show (io i == 8) = false
    exact beq_eq_false_iff_ne.mpr (hfail i)
  have hscan := scanHit_all_invalid target (mkReads arr lo hi io) hinv
  have hnar := narrowLoop_all_invalid target (mkReads arr lo hi io) lo hi hinv
  unfold searchStep
  rw [if_neg hnl, hscan, hnar]

/-- Witness for C9: a round over the interval (0, 10) in which every read
fails with result -5 continues with the interval unchanged. -/
theorem failed_round_frame_witness :
    searchStep [1, 2, 3, 4, 5, 6, 7, 8, 9, 10, 11] 99 false 0 (fun _ => -5) 0 10 =
      .cont 0 10 :=
  failed_round_frame [1, 2, 3, 4, 5, 6, 7, 8, 9, 10, 11] 99 false 0 (fun _ => -5) 0 10
    (by intro i; show ¬((-5 : Int) = 8); decide) (by decide)

/-- C5 counterexample: the claim states every round strictly shrinks the
interval or is terminal, but a probing round whose probe reads all fail
(modelled by completion results of -5, an I/O error) continues the search
with the interval (0, 10) unchanged: the round is neither terminal nor
shrinking, so the claim as stated is false on the code. -/
theorem round_no_shrink_counterexample :
    searchStep [0, 0, 0, 0, 0, 0, 0, 0, 0, 0, 0] 99 false 0 (fun _ => -5) 0 10 =
        .cont 0 10 ∧
      ¬((10 : Int) - 0 < 10 - 0) := ⟨by decide, by decide⟩

/-- C5 amended: every round in which at least one probe read completes
successfully either strictly shrinks the interval
(`new_hi - new_lo < hi - lo` whenever the round continues) or is a
terminal round (exact hit or linear scan); rounds whose probes all fail
leave the interval unchanged. -/
theorem round_shrinks_or_terminal (arr : List Nat) (target : Nat) (ur : Bool) (thr : Int)
    (io : Nat → Int) (lo hi : Int) (hlh : lo ≤ hi)
    (hvalid : ∃ i, i < activeReads (hi - lo) ∧ io i = 8) :
    ∀ lo' hi', searchStep arr target ur thr io lo hi = .cont lo' hi' →
      hi' - lo' < hi - lo := by
  intro lo' hi' hc
  rcases hvalid with ⟨i, hilt, hio⟩
  rcases searchStep_cont arr target ur thr io lo hi lo' hi' hc with ⟨hg, hscan, hlo, hhi⟩
  have hstep1 : 1 ≤ stepSize (hi - lo) (activeReads (hi - lo)) :=
    stepSize_pos _ _ (by omega)
  have hpb := probePos_bounds lo hi (stepSize (hi - lo) (activeReads (hi - lo))) i hlh hstep1
  have hmem : mkRead arr lo hi (stepSize (hi - lo) (activeReads (hi - lo))) io i ∈
      mkReads arr lo hi io := by
    rw [mem_mkReads]
    exact ⟨i, hilt, rfl⟩
  have hvalid2 :
      (mkRead arr lo hi (stepSize (hi - lo) (activeReads (hi - lo))) io i).valid = true := by
    show (io i == 8) = true
    exact beq_iff_eq.mpr hio
  have hne := scanHit_none target _ hscan _ hmem hvalid2
  have hidx := mkRead_offset_div arr lo hi (stepSize (hi - lo) (activeReads (hi - lo))) io i
  rcases lt_trichotomy
      (mkRead arr lo hi (stepSize (hi - lo) (activeReads (hi - lo))) io i).value target with
    hcase | hcase | hcase
  · have hcontrib := le_narrowSpecLo_of_mem target _ lo _ hmem hvalid2 hcase
    rw [hidx] at hcontrib
    rw [← hlo] at hcontrib
    have h2 : hi' ≤ hi := by rw [hhi]; exact narrowSpecHi_init_le target _ hi
    omega
  · exact absurd hcase hne
  · have hcontrib := narrowSpecHi_le_of_mem target _ hi _ hmem hvalid2 hcase
    rw [hidx] at hcontrib
    rw [← hhi] at hcontrib
    have h2 : lo ≤ lo' := by rw [hlo]; exact le_narrowSpecLo_init target _ lo
    omega

/-- Witness for C5 amended: the round over (0, 2) with all reads
succeeding probes index 1 (value 5 < 7) and continues with the strictly
smaller interval (2, 2). -/
theorem round_shrinks_or_terminal_witness :
    ((2 : Int) - 2 < 2 - 0) ∧
      searchStep [2, 5, 9] 7 false 0 allReadsOk 0 2 = .cont 2 2 :=
  ⟨round_shrinks_or_terminal [2, 5, 9] 7 false 0 allReadsOk 0 2 (by decide)
      ⟨0, by decide, rfl⟩ 2 2 (by decide), by decide⟩

/-- C6: When `hi - lo` is below the linear-scan threshold and the
optimization flag is enabled, the round reads the whole `[lo, hi]` range in
one bulk transfer and scans it in memory (`linearScan`), the search
terminates in that round with Found (at the byte offset of an in-range
element equal to the target) or NotFound, and the round issues zero
asynchronous probes.  The source guards this branch with
`range <= LINEAR_SEARCH_THRESHOLD`, which the claim's strict `below`
condition implies; the engine instantiates the threshold with the source
constant 0. -/
theorem linear_scan_round (arr : List Nat) (target : Nat) (thr : Int) (fuel : Nat)
    (lo hi : Int) (h0 : 0 ≤ lo) (hlh : lo ≤ hi) (hhiN : hi < (arr.length : Int))
    (hbelow : hi - lo < thr) :
    searchLoop arr target true thr (fuel + 1) lo hi =
        (match linearScan arr target lo hi with
          | some off => some (.found off)
          | none => some .notFound) ∧
      roundProbes true thr lo hi = 0 ∧
      (∀ off, linearScan arr target lo hi = some off →
        GoodOff arr target off ∧ lo ≤ off / 8 ∧ off / 8 ≤ hi) ∧
      ((∃ j : Nat, j < (hi - lo + 1).toNat ∧ arr.getD (lo + (j : Int)).toNat 0 = target) →
        ∃ off, linearScan arr target lo hi = some off) ∧
      ((∀ j : Nat, j < (hi - lo + 1).toNat → arr.getD (lo + (j : Int)).toNat 0 ≠ target) →
        linearScan arr target lo hi = none) := by
  have hguard : (true : Bool) = true ∧ hi - lo ≤ thr := ⟨rfl, by omega⟩
  have hstep : searchStep arr target true thr allReadsOk lo hi =
      .linearDone (linearScan arr target lo hi) := by
    unfold searchStep
    rw [if_pos hguard]
  refine ⟨?_, ?_, ?_, ?_, ?_⟩
  · rw [searchLoop_succ, if_neg (by omega : ¬hi < lo), hstep]
    rcases hres : linearScan arr target lo hi with _ | off <;> rfl
  · unfold roundProbes
    rw [if_pos hguard]
  · intro off hoff
    have hgood := scanFrom_some_good arr target (hi - lo + 1).toNat lo off h0 hoff
    obtain ⟨hnn, hmod, hge, hlt, hget⟩ := hgood
    exact ⟨⟨hnn, hmod, by omega, hget⟩, hge, by omega⟩
  · intro hex
    exact scanFrom_finds arr target (hi - lo + 1).toNat lo hex
  · intro hno
    exact scanFrom_none arr target (hi - lo + 1).toNat lo hno

/-- Witness for C6: with threshold 1 and the one-element interval (0, 0)
over the array [7], the linear-scan round terminates the search with Found
at offset 0 and issues no probes (and with target 3 it yields NotFound). -/
theorem linear_scan_round_witness :
    searchLoop [7] 7 true 1 1 0 0 =
        (match linearScan [7] 7 0 0 with
          | some off => some (.found off)
          | none => some .notFound) ∧
      searchLoop [7] 7 true 1 1 0 0 = some (.found 0) ∧
      searchLoop [7] 3 true 1 1 0 0 = some .notFound ∧
      roundProbes true 1 0 0 = 0 :=
  ⟨(linear_scan_round [7] 7 1 0 0 0 (by decide) (by decide) (by decide) (by decide)).1,
    by decide, by decide, by decide⟩

/-- C10: For every round entered with `0 ≤ lo ≤ hi ≤ N - 1`, every probe of
that round targets an element index in `[lo, hi]`, so every byte offset
read is a multiple of 8 lying inside the file (`0 ≤ offset` and
`offset + 8 ≤ 8 * N`); the probe slots read exactly those byte offsets; and
a continuing round preserves `0 ≤ lo` and `hi ≤ N - 1`, so the bounds hold
at the start of every round of the search. -/
theorem probe_bounds_invariant (arr : List Nat) (target : Nat) (ur : Bool) (thr : Int)
    (io : Nat → Int) (lo hi : Int)
    (h0 : 0 ≤ lo) (hlh : lo ≤ hi) (hhiN : hi ≤ (arr.length : Int) - 1) :
    (∀ p ∈ probePositions lo hi, lo ≤ p ∧ p ≤ hi ∧ p * 8 % 8 = 0 ∧ 0 ≤ p * 8 ∧
        p * 8 + 8 ≤ 8 * (arr.length : Int)) ∧
      List.map (fun r => r.offset) (mkReads arr lo hi io) =
        List.map (fun p => p * 8) (probePositions lo hi) ∧
      (∀ lo' hi', searchStep arr target ur thr io lo hi = .cont lo' hi' →
        0 ≤ lo' ∧ hi' ≤ (arr.length : Int) - 1) := by
  have hstep1 : 1 ≤ stepSize (hi - lo) (activeReads (hi - lo)) :=
    stepSize_pos _ _ (by omega)
  refine ⟨?_, ?_, ?_⟩
  · intro p hp
    simp only [probePositions, List.mem_map, List.mem_range] at hp
    rcases hp with ⟨i, hilt, hieq⟩
    subst hieq
    have hpb := probePos_bounds lo hi (stepSize (hi - lo) (activeReads (hi - lo))) i hlh hstep1
    exact ⟨hpb.1, hpb.2, Int.mul_emod_left _ 8, by omega, by omega⟩
  · simp only [mkReads, probePositions, List.map_map]
    rfl
  · intro lo' hi' hc
    rcases searchStep_cont arr target ur thr io lo hi lo' hi' hc with ⟨hg, hs, hlo, hhi⟩
    constructor
    · have := le_narrowSpecLo_init target (mkReads arr lo hi io) lo
      omega
    · have := narrowSpecHi_init_le target (mkReads arr lo hi io) hi
      omega

/-- Witness for C10: in the round over (0, 10) of an 11-element file the
single probe lands at index 5, byte offset 40, inside the file, and the
continuing round keeps the bounds. -/
theorem probe_bounds_invariant_witness :
    (∀ p ∈ probePositions 0 10, (0 : Int) ≤ p ∧ p ≤ 10 ∧ p * 8 % 8 = 0 ∧ 0 ≤ p * 8 ∧
        p * 8 + 8 ≤ 8 * (([0, 1, 2, 3, 4, 5, 6, 7, 8, 9, 10].length : Nat) : Int)) ∧
      probePositions 0 10 = [5] :=
  ⟨((probe_bounds_invariant [0, 1, 2, 3, 4, 5, 6, 7, 8, 9, 10] 4 false 0 allReadsOk 0 10
      (by decide) (by decide) (by decide)).1), by decide⟩

/-- C7 counterexample: the claim states the caller receives three
distinguishable outcomes so that a fatal I/O error is reported differently
from an absent target, but the function's return value (source line 380
and every early error return) is -1 both for the empty-file validation
error and for a target that is simply absent, while the model's internal
outcomes differ (ioError versus notFound): the error is not reported
differently to the caller. -/
theorem error_vs_notfound_counterexample :
    searchRet [] 3 false false false idealEnv = -1 ∧
      searchRet [5] 3 false false false idealEnv = -1 ∧
      runSearch [] 3 false false false idealEnv = some .ioError ∧
      runSearch [5] 3 false false false idealEnv = some .notFound :=
  ⟨by decide, by decide, by decide, by decide⟩

/-- C7 amended: the caller receives exactly one of two return values:
0 (Found) or -1 (NotFound or Error); a fatal I/O error is not
distinguished from an absent target in the value returned to the caller
(the distinction exists only in the model's outcome and in diagnostic
output). -/
theorem return_conflates_error_and_notfound (arr : List Nat) (target : Nat)
    (usq ub ur : Bool) (env : InitEnv) :
    (searchRet arr target usq ub ur env = 0 ∨ searchRet arr target usq ub ur env = -1) ∧
      (searchRet arr target usq ub ur env = 0 ↔
        ∃ off, runSearch arr target usq ub ur env = some (.found off)) := by
  unfold searchRet
  rcases hr : runSearch arr target usq ub ur env with _ | out
  · refine ⟨Or.inr rfl, ?_, ?_⟩
    · intro h; exact absurd h (by norm_num)
    · rintro ⟨off, hoff⟩; exact Option.noConfusion hoff
  · rcases out with off | _ | _
    · exact ⟨Or.inl rfl, fun _ => ⟨off, rfl⟩, fun _ => rfl⟩
    · refine ⟨Or.inr rfl, ?_, ?_⟩
      · intro h; exact absurd h (by norm_num)
      · rintro ⟨off, hoff⟩
        have := Option.some.inj hoff
        exact SearchOutcome.noConfusion this
    · refine ⟨Or.inr rfl, ?_, ?_⟩
      · intro h; exact absurd h (by norm_num)
      · rintro ⟨off, hoff⟩
        have := Option.some.inj hoff
        exact SearchOutcome.noConfusion this

/-- C8 counterexample: the claim requires the degraded mode to be
observable to the caller (e.g. via a result flag), but forcing SQPOLL
initialization to fail, or buffer registration to fail, produces exactly
the same returned value and the same search outcome as the fully
successful environment: nothing in the result reflects the degradation
(the source only prints it). -/
theorem degraded_not_observable_counterexample :
    searchRet [5] 5 true true false ⟨false, true, true⟩ =
        searchRet [5] 5 true true false idealEnv ∧
      searchRet [5] 5 false true false ⟨true, true, false⟩ =
        searchRet [5] 5 false true false idealEnv ∧
      runSearch [5] 5 true true false ⟨false, true, true⟩ =
        runSearch [5] 5 true true false idealEnv :=
  ⟨by decide, by decide, by decide⟩

/-- C8 amended: when kernel-polling initialization fails but the standard
queue initializes, the engine falls back non-fatally to standard mode
(polling flag false); when zero-copy buffer registration fails, zero-copy
is non-fatally disabled (registration flag false); in both degraded cases
the search completes with the same correct Found/NotFound outcome as a
non-degraded run; the degraded mode is, however, not observable in the
value returned to the caller — it is only printed. -/
theorem degraded_fallback_correct (arr : List Nat) (target : Nat)
    (usq ub ur : Bool) (env : InitEnv) (hstd : env.stdInitOk = true) :
    initRing usq ub env ≠ none ∧
      (env.sqpollInitOk = false → Option.map Prod.fst (initRing usq ub env) = some false) ∧
      (env.registerOk = false → Option.map Prod.snd (initRing usq ub env) = some false) ∧
      runSearch arr target usq ub ur env = runSearch arr target false false ur idealEnv := by
  obtain ⟨sq0, st0, rg0⟩ := env
  have hst : st0 = true := hstd
  subst hst
  refine ⟨?_, ?_, ?_, ?_⟩
  · cases usq <;> cases sq0 <;> cases ub <;> cases rg0 <;> simp [initRing]
  · intro hsq
    have hsq' : sq0 = false := hsq
    subst hsq'
    cases usq <;> cases ub <;> cases rg0 <;> rfl
  · intro hrg
    have hrg' : rg0 = false := hrg
    subst hrg'
    cases usq <;> cases sq0 <;> cases ub <;> rfl
  · unfold runSearch
    by_cases hl : arr.length = 0
    · rw [if_pos hl, if_pos hl]
    · rw [if_neg hl, if_neg hl]
      cases usq <;> cases sq0 <;> cases ub <;> cases rg0 <;> rfl

/-- Witness for C8 amended: with SQPOLL initialization and buffer
registration both failing (standard initialization succeeding), the search
on [5] for 5 still matches the non-degraded outcome, and the degraded
flags are reported as false. -/
theorem degraded_fallback_correct_witness :
    (initRing true true ⟨false, true, false⟩ ≠ none ∧
      (InitEnv.sqpollInitOk ⟨false, true, false⟩ = false →
        Option.map Prod.fst (initRing true true ⟨false, true, false⟩) = some false) ∧
      (InitEnv.registerOk ⟨false, true, false⟩ = false →
        Option.map Prod.snd (initRing true true ⟨false, true, false⟩) = some false) ∧
      runSearch [5] 5 true true false ⟨false, true, false⟩ =
        runSearch [5] 5 false false false idealEnv) ∧
      runSearch [5] 5 true true false ⟨false, true, false⟩ = some (.found 0) :=
  ⟨degraded_fallback_correct [5] 5 true true false ⟨false, true, false⟩ rfl, by decide⟩
